import Mathlib

/-!
Verification of the go-lru in-memory LRU cache (src/src/lru/lru_cache.go)
against its specification.

Shallow embedding conventions: wall-clock time is an integer number of
nanoseconds (Go time.Time has nanosecond resolution), and every operation
that calls time.Now() in Go receives the current instant as an explicit
`now` parameter.  The Go map[string]*StorageItem is modelled as an
association list with unique keys; map iteration order is fixed to the
list order (Go iteration order is arbitrary, and no verified property
depends on it beyond tie-breaking, which the spec declares arbitrary).
The repository contains two variants of the cache (a channel-serialized
one and a mutex-guarded one); their sequential store semantics - Has,
Get, Set/setFromChannel, sweepKeys, removeOldestKey, bumpDeleteAt,
NewLRUCache - are identical and are what is embedded here.
-/

namespace LRU

/-- Number of nanoseconds in one millisecond (Go time.Millisecond). -/
def millisecond : Int := 1000000

/-- Go Duration.Milliseconds(): nanoseconds divided by one million with
integer division truncating toward zero, exactly as Go int64 division. -/
def durationMilliseconds (d : Int) : Int := Int.tdiv d millisecond

/-- LRUCacheConfig from the source: ItemLimit and TTL are int64 fields. -/
structure LRUCacheConfig where
  ItemLimit : Int
  TTL : Int
  deriving DecidableEq

/-- StorageItem from the source: the stored value plus the absolute expiry
instant DeleteAt (a time.Time, here nanoseconds). -/
structure StorageItem (α : Type) where
  Value : α
  DeleteAt : Int
  deriving DecidableEq

variable {α : Type}

/-- Go map read storage[key] on the association-list model. -/
def mapLookup (key : String) : List (String × StorageItem α) → Option (StorageItem α)
  | [] => none
  | p :: rest => if p.1 = key then some p.2 else mapLookup key rest

/-- Go map write storage[key] = item: overwrite in place when the key is
present, append a fresh binding otherwise. -/
def mapInsert (key : String) (item : StorageItem α) :
    List (String × StorageItem α) → List (String × StorageItem α)
  | [] => [(key, item)]
  | p :: rest => if p.1 = key then (key, item) :: rest else p :: mapInsert key item rest

/-- Go delete(storage, key). -/
def mapDelete (key : String) (l : List (String × StorageItem α)) :
    List (String × StorageItem α) :=
  l.filter (fun p => p.1 ≠ key)

/-- bumpDeleteAt from the source: item.DeleteAt = time.Now().Add(ms * Millisecond). -/
def bumpDeleteAt (item : StorageItem α) (now ms : Int) : StorageItem α :=
  { item with DeleteAt := now + ms * millisecond }

/-- Pointwise effect of the in-place bumpDeleteAt on one stored binding:
the binding under the given key has its DeleteAt refreshed, every other
binding is untouched. -/
def bumpEntry (now ttl : Int) (key : String) (p : String × StorageItem α) :
    String × StorageItem α :=
  if p.1 = key then (p.1, bumpDeleteAt p.2 now ttl) else p

/-- Effect on the store of calling bumpDeleteAt through the pointer returned
by the map lookup: the entry under the given key has its DeleteAt refreshed,
every other entry is untouched. -/
def bumpKey (now ttl : Int) (key : String) (l : List (String × StorageItem α)) :
    List (String × StorageItem α) :=
  l.map (bumpEntry now ttl key)

/-- InMemoryLRUCache: the configuration and the entry store.  The message
channel (variant one) and the mutex (variant two) are serialization devices
with no sequential content and are not part of the state. -/
structure InMemoryLRUCache (α : Type) where
  Config : LRUCacheConfig
  Storage : List (String × StorageItem α)
  deriving DecidableEq

/-- Has from the source: look the key up; on absence return false with no
side effect, on presence bump the entry's DeleteAt and return true.  No
comparison of DeleteAt against the current time is performed. -/
def Has (cache : InMemoryLRUCache α) (now : Int) (key : String) :
    Bool × InMemoryLRUCache α :=
  match mapLookup key cache.Storage with
  | none => (false, cache)
  | some _ => (true, { cache with Storage := bumpKey now cache.Config.TTL key cache.Storage })

/-- Error string built by Get on a miss. -/
def keyNotFoundError : String := "key not found on LRU cache"

/-- Get from the source: on absence return the zero value of T plus the
NotFound error; on presence bump the entry's DeleteAt and return its value
with a nil error.  No comparison of DeleteAt against the current time is
performed.  The middle component models the Go error result (none = nil). -/
def Get [Inhabited α] (cache : InMemoryLRUCache α) (now : Int) (key : String) :
    α × Option String × InMemoryLRUCache α :=
  match mapLookup key cache.Storage with
  | none => (default, some keyNotFoundError, cache)
  | some item =>
      (item.Value, none, { cache with Storage := bumpKey now cache.Config.TTL key cache.Storage })

/-- sweepKeys from the source: delete every entry whose
now.Sub(DeleteAt).Milliseconds() is at least zero, keep the rest. -/
def sweepKeys (cache : InMemoryLRUCache α) (now : Int) : InMemoryLRUCache α :=
  { cache with Storage :=
      cache.Storage.filter (fun p => ¬ (0 ≤ durationMilliseconds (now - p.2.DeleteAt))) }

/-- One step of the scan in removeOldestKey: the tracker (oldestKey,
oldestTime) starts at ("", zero time) and is replaced whenever it still
holds the empty-string sentinel or a strictly older DeleteAt is seen. -/
def oldestStep (acc : String × Int) (p : String × StorageItem α) : String × Int :=
  if acc.1 = "" ∨ p.2.DeleteAt < acc.2 then (p.1, p.2.DeleteAt) else acc

/-- Scan phase of removeOldestKey over the whole store. -/
def oldestScan (l : List (String × StorageItem α)) : String × Int :=
  l.foldl oldestStep ("", 0)

/-- removeOldestKey from the source: scan for the oldest entry, then delete
the tracked key unless the tracker still holds the empty-string sentinel. -/
def removeOldestKey (l : List (String × StorageItem α)) :
    List (String × StorageItem α) :=
  if (oldestScan l).1 ≠ "" then mapDelete (oldestScan l).1 l else l

/-- setFromChannel from the source (also the body of Set in the mutex
variant): when the store is at or above ItemLimit, run removeOldestKey
first; then unconditionally write the new entry with
DeleteAt = now + TTL milliseconds, and return the value just stored. -/
def setFromChannel (cache : InMemoryLRUCache α) (now : Int) (key : String) (value : α) :
    α × InMemoryLRUCache α :=
  (value,
   { cache with Storage :=
       (mapInsert key (StorageItem.mk value (now + cache.Config.TTL * millisecond))
         (if (cache.Storage.length : Int) ≥ cache.Config.ItemLimit
          then removeOldestKey cache.Storage
          else cache.Storage)) })

/-- Set from the source: the channel variant funnels the write through the
message listener, which runs setFromChannel and answers done; the mutex
variant performs the same body inline under the lock.  Sequentially both
are setFromChannel. -/
def Set (cache : InMemoryLRUCache α) (now : Int) (key : String) (value : α) :
    α × InMemoryLRUCache α :=
  setFromChannel cache now key value

/-- NewLRUCache from the source provider: build the cache with the given
configuration and an empty storage map and start the background
listener/sweeper.  No validation of the configuration is performed, and
the signature offers no error channel. -/
def NewLRUCache (config : LRUCacheConfig) : InMemoryLRUCache α :=
  { Config := config, Storage := [] }

/-- One externally triggerable operation on the cache, tagged with the
instant at which it runs: a foreground has/get/set call or one tick of
the background sweeper. -/
inductive CacheOp (α : Type) where
  | has (now : Int) (key : String)
  | get (now : Int) (key : String)
  | set (now : Int) (key : String) (value : α)
  | sweep (now : Int)
  deriving DecidableEq

/-- State transition of a single operation. -/
def applyOp [Inhabited α] (cache : InMemoryLRUCache α) : CacheOp α → InMemoryLRUCache α
  | .has now key => (Has cache now key).2
  | .get now key => (Get cache now key).2.2
  | .set now key value => (Set cache now key value).2
  | .sweep now => sweepKeys cache now

/-- Run a sequence of operations from a starting state. -/
def runOps [Inhabited α] (cache : InMemoryLRUCache α) (ops : List (CacheOp α)) :
    InMemoryLRUCache α :=
  ops.foldl applyOp cache

/-- Whether an operation avoids the empty string as a set key (has/get/sweep
are unrestricted since they never insert). -/
def opSetKeyNonempty : CacheOp α → Bool
  | .set _ key _ => key ≠ ""
  | _ => true

/-- Concrete state with one entry whose DeleteAt (0) is already in the past
for the query instants used below: logically expired but not yet swept. -/
def expiredCache : InMemoryLRUCache Nat :=
  { Config := { ItemLimit := 1, TTL := 1000 }, Storage := [("k", ⟨5, 0⟩)] }

/-- Concrete full state (two entries, ItemLimit 2) with distinct nonempty
keys, entry "a" holding the minimal DeleteAt. -/
def fullCache : InMemoryLRUCache Nat :=
  { Config := { ItemLimit := 2, TTL := 1000 }, Storage := [("a", ⟨1, 5⟩), ("b", ⟨2, 9⟩)] }

/-- Concrete full state (ItemLimit 2) in which the entry with the minimal
DeleteAt is stored under the empty-string key. -/
def emptyKeyCache : InMemoryLRUCache Nat :=
  { Config := { ItemLimit := 2, TTL := 1000 }, Storage := [("x", ⟨1, 10⟩), ("", ⟨2, 0⟩)] }

/-- Concrete state with one entry expiring 500000 nanoseconds (half a
millisecond) after instant 0. -/
def almostExpiredCache : InMemoryLRUCache Nat :=
  { Config := { ItemLimit := 1, TTL := 1000 }, Storage := [("k", ⟨5, 500000⟩)] }

/-! Helper lemmas about the embedded map operations. -/

theorem tdiv_million_nonneg_iff (d : Int) :
    0 ≤ Int.tdiv d 1000000 ↔ -1000000 < d := by
  rcases le_or_lt 0 d with h | h
  · rw [Int.tdiv_eq_ediv h (by norm_num)]
    omega
  · have hd : d = -(-d) := by ring
    rw [hd, Int.neg_tdiv, Int.tdiv_eq_ediv (by omega) (by norm_num)]
    omega

theorem mapLookup_eq_none_iff (key : String) (l : List (String × StorageItem α)) :
    mapLookup key l = none ↔ ∀ p ∈ l, p.1 ≠ key := by
  induction l with
  | nil => simp [mapLookup]
  | cons p rest ih =>
    by_cases h : p.1 = key
    · simp [mapLookup, h]
    · simp [mapLookup, h, ih]

theorem mapLookup_mapInsert_self (key : String) (item : StorageItem α)
    (l : List (String × StorageItem α)) :
    mapLookup key (mapInsert key item l) = some item := by
  induction l with
  | nil => simp [mapInsert, mapLookup]
  | cons p rest ih =>
    by_cases h : p.1 = key
    · simp [mapInsert, h, mapLookup]
    · simp [mapInsert, h, mapLookup, ih]

theorem mapInsert_length_le (key : String) (item : StorageItem α)
    (l : List (String × StorageItem α)) :
    (mapInsert key item l).length ≤ l.length + 1 := by
  induction l with
  | nil => simp [mapInsert]
  | cons p rest ih =>
    by_cases h : p.1 = key
    · simp [mapInsert, h]
    · simp only [mapInsert, h, if_false, List.length_cons]
      omega

theorem mapInsert_length_present (key : String) (item : StorageItem α)
    (l : List (String × StorageItem α)) (h : mapLookup key l ≠ none) :
    (mapInsert key item l).length = l.length := by
  induction l with
  | nil => simp [mapLookup] at h
  | cons p rest ih =>
    by_cases hp : p.1 = key
    · simp [mapInsert, hp]
    · simp only [mapLookup, hp, if_false] at h
      simp [mapInsert, hp, ih h]

theorem mapInsert_length_absent (key : String) (item : StorageItem α)
    (l : List (String × StorageItem α)) (h : ∀ p ∈ l, p.1 ≠ key) :
    (mapInsert key item l).length = l.length + 1 := by
  induction l with
  | nil => simp [mapInsert]
  | cons p rest ih =>
    have hp : p.1 ≠ key := h p (by simp)
    simp [mapInsert, hp, ih (fun q hq => h q (by simp [hq]))]

theorem mapInsert_mem_or (key : String) (item : StorageItem α)
    (l : List (String × StorageItem α)) :
    ∀ p ∈ mapInsert key item l, p = (key, item) ∨ p ∈ l := by
  induction l with
  | nil => simp [mapInsert]
  | cons q rest ih =>
    intro p hp
    by_cases h : q.1 = key
    · simp only [mapInsert, h, if_true] at hp
      rcases List.mem_cons.mp hp with rfl | hp2
      · exact Or.inl rfl
      · exact Or.inr (by simp [hp2])
    · simp only [mapInsert, h, if_false] at hp
      rcases List.mem_cons.mp hp with rfl | hp2
      · exact Or.inr (by simp)
      · rcases ih p hp2 with h2 | h2
        · exact Or.inl h2
        · exact Or.inr (by simp [h2])

theorem mapDelete_subset (key : String) (l : List (String × StorageItem α)) :
    ∀ p ∈ mapDelete key l, p ∈ l := by
  intro p hp
  exact List.mem_of_mem_filter hp

theorem mapDelete_keys_ne (key : String) (l : List (String × StorageItem α)) :
    ∀ p ∈ mapDelete key l, p.1 ≠ key := by
  intro p hp
  have := List.of_mem_filter hp
  simpa using this

theorem mapDelete_length_lt (key : String) (l : List (String × StorageItem α))
    (h : ∃ p ∈ l, p.1 = key) :
    (mapDelete key l).length < l.length := by
  obtain ⟨p, hp, hk⟩ := h
  unfold mapDelete
  rw [List.length_filter_lt_length_iff_exists]
  exact ⟨p, hp, by simp [hk]⟩

theorem mapDelete_length_nodup (key : String) (l : List (String × StorageItem α))
    (hnd : (l.map Prod.fst).Nodup) (h : ∃ p ∈ l, p.1 = key) :
    (mapDelete key l).length + 1 = l.length := by
  induction l with
  | nil => simp at h
  | cons p rest ih =>
    have hnd2 : (rest.map Prod.fst).Nodup := (List.nodup_cons.mp (by simpa using hnd)).2
    by_cases hp : p.1 = key
    · have hrest : ∀ q ∈ rest, q.1 ≠ key := by
        intro q hq hqk
        have hmem : p.1 ∈ rest.map Prod.fst := by
          rw [hp, ← hqk]
          exact List.mem_map_of_mem Prod.fst hq
        exact (List.nodup_cons.mp (by simpa using hnd)).1 hmem
      have hdel : mapDelete key (p :: rest) = rest := by
        unfold mapDelete
        rw [List.filter_cons_of_neg (by simp [hp])]
        rw [List.filter_eq_self]
        intro q hq
        simpa using hrest q hq
      rw [hdel]
      simp
    · have h2 : ∃ q ∈ rest, q.1 = key := by
        obtain ⟨q, hq, hk⟩ := h
        rcases List.mem_cons.mp hq with rfl | hq2
        · exact absurd hk hp
        · exact ⟨q, hq2, hk⟩
      have := ih hnd2 h2
      unfold mapDelete at this ⊢
      rw [List.filter_cons_of_pos (by simp [hp])]
      simp only [List.length_cons]
      omega

theorem bumpEntry_fst (now ttl : Int) (key : String) (p : String × StorageItem α) :
    (bumpEntry now ttl key p).1 = p.1 := by
  unfold bumpEntry
  split <;> rfl

theorem bumpEntry_value (now ttl : Int) (key : String) (p : String × StorageItem α) :
    (bumpEntry now ttl key p).2.Value = p.2.Value := by
  unfold bumpEntry
  split <;> simp [bumpDeleteAt]

theorem bumpKey_length (now ttl : Int) (key : String)
    (l : List (String × StorageItem α)) :
    (bumpKey now ttl key l).length = l.length := by
  simp [bumpKey]

theorem bumpKey_map_fst (now ttl : Int) (key : String)
    (l : List (String × StorageItem α)) :
    (bumpKey now ttl key l).map Prod.fst = l.map Prod.fst := by
  unfold bumpKey
  rw [List.map_map]
  exact List.map_congr_left (fun p _ => bumpEntry_fst now ttl key p)

theorem bumpKey_map_kv (now ttl : Int) (key : String)
    (l : List (String × StorageItem α)) :
    (bumpKey now ttl key l).map (fun p => (p.1, p.2.Value))
      = l.map (fun p => (p.1, p.2.Value)) := by
  unfold bumpKey
  rw [List.map_map]
  refine List.map_congr_left (fun p _ => ?_)
  simp [Function.comp, bumpEntry_fst, bumpEntry_value]

theorem bumpKey_filter_ne (now ttl : Int) (key : String)
    (l : List (String × StorageItem α)) :
    (bumpKey now ttl key l).filter (fun p => p.1 ≠ key)
      = l.filter (fun p => p.1 ≠ key) := by
  induction l with
  | nil => rfl
  | cons p rest ih =>
    by_cases h : p.1 = key
    · have hb : bumpEntry now ttl key p = (p.1, bumpDeleteAt p.2 now ttl) := by
        simp [bumpEntry, h]
      simp only [bumpKey, List.map_cons] at ih ⊢
      rw [hb, List.filter_cons_of_neg (by simp [h]), List.filter_cons_of_neg (by simp [h])]
      exact ih
    · have hb : bumpEntry now ttl key p = p := by
        simp [bumpEntry, h]
      simp only [bumpKey, List.map_cons] at ih ⊢
      rw [hb, List.filter_cons_of_pos (by simp [h]), List.filter_cons_of_pos (by simp [h])]
      rw [ih]

theorem mapLookup_bumpKey_self (now ttl : Int) (key : String)
    (l : List (String × StorageItem α)) :
    mapLookup key (bumpKey now ttl key l)
      = (mapLookup key l).map (fun it => bumpDeleteAt it now ttl) := by
  induction l with
  | nil => rfl
  | cons p rest ih =>
    by_cases h : p.1 = key
    · simp [bumpKey, mapLookup, bumpEntry, h]
    · simp only [bumpKey, List.map_cons] at ih ⊢
      have hb : bumpEntry now ttl key p = p := by simp [bumpEntry, h]
      rw [hb]
      simp [mapLookup, h, ih]

theorem bumpKey_keys_ne (now ttl : Int) (key s : String)
    (l : List (String × StorageItem α)) (h : ∀ p ∈ l, p.1 ≠ s) :
    ∀ p ∈ bumpKey now ttl key l, p.1 ≠ s := by
  intro p hp
  rcases List.mem_map.mp hp with ⟨q, hq, rfl⟩
  rw [bumpEntry_fst]
  exact h q hq

/-! Lemmas about the eviction scan of removeOldestKey. -/

theorem foldl_oldestStep_ne (l : List (String × StorageItem α)) :
    ∀ acc : String × Int, acc.1 ≠ "" → (∀ p ∈ l, p.1 ≠ "") →
      (l.foldl oldestStep acc).1 ≠ "" := by
  induction l with
  | nil => intro acc h _; simpa using h
  | cons p rest ih =>
    intro acc hacc hkeys
    have hp : p.1 ≠ "" := hkeys p (by simp)
    have hrest : ∀ q ∈ rest, q.1 ≠ "" := fun q hq => hkeys q (by simp [hq])
    simp only [List.foldl_cons]
    refine ih (oldestStep acc p) ?_ hrest
    unfold oldestStep
    split
    · exact hp
    · exact hacc

theorem foldl_oldestStep_mem (l : List (String × StorageItem α)) :
    ∀ acc : String × Int,
      l.foldl oldestStep acc = acc ∨
        ∃ p ∈ l, l.foldl oldestStep acc = (p.1, p.2.DeleteAt) := by
  induction l with
  | nil => intro acc; exact Or.inl rfl
  | cons p rest ih =>
    intro acc
    simp only [List.foldl_cons]
    rcases ih (oldestStep acc p) with h | h
    · rw [h]
      unfold oldestStep
      split
      · exact Or.inr ⟨p, by simp, rfl⟩
      · exact Or.inl rfl
    · obtain ⟨q, hq, he⟩ := h
      exact Or.inr ⟨q, by simp [hq], he⟩

theorem foldl_oldestStep_min (l : List (String × StorageItem α)) :
    ∀ acc : String × Int, acc.1 ≠ "" → (∀ p ∈ l, p.1 ≠ "") →
      (l.foldl oldestStep acc).2 ≤ acc.2 ∧
        ∀ p ∈ l, (l.foldl oldestStep acc).2 ≤ p.2.DeleteAt := by
  induction l with
  | nil => intro acc _ _; exact ⟨le_refl _, by simp⟩
  | cons p rest ih =>
    intro acc hacc hkeys
    have hp : p.1 ≠ "" := hkeys p (by simp)
    have hrest : ∀ q ∈ rest, q.1 ≠ "" := fun q hq => hkeys q (by simp [hq])
    have hstep1 : (oldestStep acc p).1 ≠ "" := by
      unfold oldestStep
      split
      · exact hp
      · exact hacc
    have hstep2 : (oldestStep acc p).2 ≤ acc.2 ∧ (oldestStep acc p).2 ≤ p.2.DeleteAt := by
      unfold oldestStep
      split
      next h =>
        rcases h with h | h
        · exact absurd h hacc
        · exact ⟨le_of_lt h, le_refl _⟩
      next h =>
        push_neg at h
        exact ⟨le_refl _, h.2⟩
    obtain ⟨ha, hb⟩ := ih (oldestStep acc p) hstep1 hrest
    simp only [List.foldl_cons]
    constructor
    · exact le_trans ha hstep2.1
    · intro q hq
      rcases List.mem_cons.mp hq with rfl | hq2
      · exact le_trans ha hstep2.2
      · exact hb q hq2

theorem removeOldestKey_spec (l : List (String × StorageItem α))
    (hne : l ≠ []) (hkeys : ∀ p ∈ l, p.1 ≠ "") :
    ∃ p ∈ l, (∀ q ∈ l, p.2.DeleteAt ≤ q.2.DeleteAt) ∧
      removeOldestKey l = mapDelete p.1 l := by
  match l, hne with
  | p0 :: rest, _ =>
    have hp0 : p0.1 ≠ "" := hkeys p0 (by simp)
    have hrest : ∀ q ∈ rest, q.1 ≠ "" := fun q hq => hkeys q (by simp [hq])
    have hstep : oldestStep ("", 0) p0 = (p0.1, p0.2.DeleteAt) := by
      unfold oldestStep
      simp
    have hscan : oldestScan (p0 :: rest) = rest.foldl oldestStep (p0.1, p0.2.DeleteAt) := by
      unfold oldestScan
      simp only [List.foldl_cons, hstep]
    have hne2 : (oldestScan (p0 :: rest)).1 ≠ "" := by
      rw [hscan]
      exact foldl_oldestStep_ne rest (p0.1, p0.2.DeleteAt) hp0 hrest
    have hmin : (oldestScan (p0 :: rest)).2 ≤ p0.2.DeleteAt ∧
        ∀ q ∈ rest, (oldestScan (p0 :: rest)).2 ≤ q.2.DeleteAt := by
      rw [hscan]
      exact foldl_oldestStep_min rest (p0.1, p0.2.DeleteAt) hp0 hrest
    have hmem : ∃ p ∈ p0 :: rest, oldestScan (p0 :: rest) = (p.1, p.2.DeleteAt) := by
      rw [hscan]
      rcases foldl_oldestStep_mem rest (p0.1, p0.2.DeleteAt) with h | h
      · exact ⟨p0, by simp, h⟩
      · obtain ⟨q, hq, he⟩ := h
        exact ⟨q, by simp [hq], he⟩
    obtain ⟨p, hpmem, hpeq⟩ := hmem
    refine ⟨p, hpmem, ?_, ?_⟩
    · intro q hq
      have h2 : (oldestScan (p0 :: rest)).2 = p.2.DeleteAt := by rw [hpeq]
      rcases List.mem_cons.mp hq with rfl | hq2
      · rw [← h2]; exact hmin.1
      · rw [← h2]; exact hmin.2 q hq2
    · unfold removeOldestKey
      rw [if_pos hne2, hpeq]

theorem removeOldestKey_length_lt (l : List (String × StorageItem α))
    (hne : l ≠ []) (hkeys : ∀ p ∈ l, p.1 ≠ "") :
    (removeOldestKey l).length < l.length := by
  obtain ⟨p, hp, _, hrem⟩ := removeOldestKey_spec l hne hkeys
  rw [hrem]
  exact mapDelete_length_lt p.1 l ⟨p, hp, rfl⟩

theorem removeOldestKey_subset (l : List (String × StorageItem α)) :
    ∀ p ∈ removeOldestKey l, p ∈ l := by
  intro p hp
  unfold removeOldestKey at hp
  split at hp
  · exact mapDelete_subset _ l p hp
  · exact hp

/-! Preservation of the capacity invariant along arbitrary operation
sequences. -/

theorem applyOp_inv [Inhabited α] (c : InMemoryLRUCache α) (op : CacheOp α)
    (hpos : 0 < c.Config.ItemLimit)
    (hkeys : ∀ p ∈ c.Storage, p.1 ≠ "")
    (hlen : (c.Storage.length : Int) ≤ c.Config.ItemLimit)
    (hop : opSetKeyNonempty op = true) :
    (applyOp c op).Config = c.Config ∧
      (∀ p ∈ (applyOp c op).Storage, p.1 ≠ "") ∧
      (((applyOp c op).Storage.length : Int) ≤ c.Config.ItemLimit) := by
  cases op with
  | has now key =>
    cases hm : mapLookup key c.Storage with
    | none =>
      refine ⟨by simp [applyOp, Has, hm], ?_, ?_⟩
      · simpa [applyOp, Has, hm] using hkeys
      · simpa [applyOp, Has, hm] using hlen
    | some it =>
      refine ⟨by simp [applyOp, Has, hm], ?_, ?_⟩
      · simp only [applyOp, Has, hm]
        exact bumpKey_keys_ne _ _ _ _ _ hkeys
      · simp only [applyOp, Has, hm]
        rw [bumpKey_length]
        exact hlen
  | get now key =>
    cases hm : mapLookup key c.Storage with
    | none =>
      refine ⟨by simp [applyOp, Get, hm], ?_, ?_⟩
      · simpa [applyOp, Get, hm] using hkeys
      · simpa [applyOp, Get, hm] using hlen
    | some it =>
      refine ⟨by simp [applyOp, Get, hm], ?_, ?_⟩
      · simp only [applyOp, Get, hm]
        exact bumpKey_keys_ne _ _ _ _ _ hkeys
      · simp only [applyOp, Get, hm]
        rw [bumpKey_length]
        exact hlen
  | sweep now =>
    refine ⟨rfl, ?_, ?_⟩
    · intro p hp
      simp only [applyOp, sweepKeys] at hp
      exact hkeys p (List.mem_of_mem_filter hp)
    · have h1 : (applyOp c (CacheOp.sweep now)).Storage.length ≤ c.Storage.length := by
        simp only [applyOp, sweepKeys]
        exact List.length_filter_le _ _
      exact le_trans (by exact_mod_cast h1) hlen
  | set now key value =>
    have hkey : key ≠ "" := by simpa [opSetKeyNonempty] using hop
    refine ⟨rfl, ?_, ?_⟩
    · intro p hp
      simp only [applyOp, Set, setFromChannel] at hp
      rcases mapInsert_mem_or _ _ _ p hp with rfl | hp2
      · simpa using hkey
      · split at hp2
        · exact hkeys p (removeOldestKey_subset _ p hp2)
        · exact hkeys p hp2
    · simp only [applyOp, Set, setFromChannel]
      by_cases hc : (c.Storage.length : Int) ≥ c.Config.ItemLimit
      · rw [if_pos hc]
        have hne : c.Storage ≠ [] := by
          have h0 : (0 : Int) < (c.Storage.length : Int) := lt_of_lt_of_le hpos hc
          have h1 : 0 < c.Storage.length := by exact_mod_cast h0
          exact List.ne_nil_of_length_pos h1
        have h1 := removeOldestKey_length_lt c.Storage hne hkeys
        have h2 := mapInsert_length_le key
          (StorageItem.mk value (now + c.Config.TTL * millisecond)) (removeOldestKey c.Storage)
        have h3 : (mapInsert key (StorageItem.mk value (now + c.Config.TTL * millisecond))
            (removeOldestKey c.Storage)).length ≤ c.Storage.length := by omega
        exact le_trans (by exact_mod_cast h3) hlen
      · rw [if_neg hc]
        push_neg at hc
        have h2 := mapInsert_length_le key
          (StorageItem.mk value (now + c.Config.TTL * millisecond)) c.Storage
        have h3 : ((mapInsert key (StorageItem.mk value (now + c.Config.TTL * millisecond))
            c.Storage).length : Int) ≤ (c.Storage.length : Int) + 1 := by exact_mod_cast h2
        omega

theorem runOps_inv [Inhabited α] (ops : List (CacheOp α)) :
    ∀ c : InMemoryLRUCache α, 0 < c.Config.ItemLimit →
      (∀ p ∈ c.Storage, p.1 ≠ "") →
      ((c.Storage.length : Int) ≤ c.Config.ItemLimit) →
      (∀ op ∈ ops, opSetKeyNonempty op = true) →
      (runOps c ops).Config = c.Config ∧
        (∀ p ∈ (runOps c ops).Storage, p.1 ≠ "") ∧
        (((runOps c ops).Storage.length : Int) ≤ c.Config.ItemLimit) := by
  induction ops with
  | nil => intro c _ hkeys hlen _; exact ⟨rfl, hkeys, hlen⟩
  | cons op rest ih =>
    intro c hpos hkeys hlen hops
    have hop : opSetKeyNonempty op = true := hops op (by simp)
    have hrest : ∀ o ∈ rest, opSetKeyNonempty o = true := fun o ho => hops o (by simp [ho])
    obtain ⟨hcfg, hk2, hl2⟩ := applyOp_inv c op hpos hkeys hlen hop
    have hpos2 : 0 < (applyOp c op).Config.ItemLimit := by rw [hcfg]; exact hpos
    have hl2b : ((applyOp c op).Storage.length : Int) ≤ (applyOp c op).Config.ItemLimit := by
      rw [hcfg]; exact hl2
    obtain ⟨h1, h2, h3⟩ := ih (applyOp c op) hpos2 hk2 hl2b hrest
    have hrun : runOps c (op :: rest) = runOps (applyOp c op) rest := rfl
    refine ⟨?_, ?_, ?_⟩
    · rw [hrun, h1, hcfg]
    · rw [hrun]; exact h2
    · rw [hrun]
      have := h3
      rw [hcfg] at this
      exact this

/-! Helper lemmas about Set. -/

theorem Set_fst (c : InMemoryLRUCache α) (now : Int) (key : String) (value : α) :
    (Set c now key value).1 = value := rfl

theorem Set_config (c : InMemoryLRUCache α) (now : Int) (key : String) (value : α) :
    (Set c now key value).2.Config = c.Config := rfl

theorem mapLookup_Set_self (c : InMemoryLRUCache α) (now : Int) (key : String) (value : α) :
    mapLookup key (Set c now key value).2.Storage
      = some (StorageItem.mk value (now + c.Config.TTL * millisecond)) := by
  simp only [Set, setFromChannel]
  exact mapLookup_mapInsert_self key _ _

theorem Set_storage_of_lt (c : InMemoryLRUCache α) (now : Int) (key : String) (value : α)
    (h : (c.Storage.length : Int) < c.Config.ItemLimit) :
    (Set c now key value).2.Storage
      = mapInsert key (StorageItem.mk value (now + c.Config.TTL * millisecond)) c.Storage := by
  simp only [Set, setFromChannel]
  rw [if_neg (not_le.mpr h)]

/-! Claim theorems. -/

/-- C1 (amended): Get signals the NotFound error, returning the zero value,
exactly when the key is physically absent from the store; the entry's
DeleteAt is never consulted, so an expired-but-not-yet-swept entry is still
returned as a hit, with its value, a nil error, and DeleteAt refreshed to
now + ttlMillis. -/
theorem claim1_get_miss_iff_absent [Inhabited α] (c : InMemoryLRUCache α)
    (now : Int) (key : String) :
    ((Get c now key).2.1 = some keyNotFoundError ↔ mapLookup key c.Storage = none) ∧
      (mapLookup key c.Storage = none →
        Get c now key = (default, some keyNotFoundError, c)) ∧
      (∀ item, mapLookup key c.Storage = some item →
        (Get c now key).1 = item.Value ∧ (Get c now key).2.1 = none ∧
          mapLookup key (Get c now key).2.2.Storage
            = some (StorageItem.mk item.Value (now + c.Config.TTL * millisecond))) := by
  cases hm : mapLookup key c.Storage with
  | none =>
    refine ⟨by simp [Get, hm], fun _ => by simp [Get, hm], ?_⟩
    intro item hitem
    exact absurd hitem (by simp)
  | some it =>
    refine ⟨by simp [Get, hm], ?_, ?_⟩
    · intro h
      exact absurd h (by simp)
    · intro item hitem
      have hit : it = item := Option.some.inj hitem
      subst hit
      refine ⟨by simp [Get, hm], by simp [Get, hm], ?_⟩
      simp only [Get, hm]
      rw [mapLookup_bumpKey_self, hm]
      simp [bumpDeleteAt]

/-- C1 counterexample: in expiredCache the key "k" is present with
DeleteAt = 0, and at instant 5000000 (5 ms later) it is logically expired,
so the claim predicts a NotFound error; Get instead returns the stored
value with a nil error, refuting the claimed iff at this input. -/
theorem claim1_cex :
    ¬ (((Get expiredCache 5000000 ("k")).2.1 ≠ none) ↔
        (mapLookup ("k") expiredCache.Storage = none ∨ (0 : Int) ≤ 5000000)) := by
  decide

/-- C1 witness: the hit branch of claim1_get_miss_iff_absent evaluated on
expiredCache at instant 20 with stored item (5, 0). -/
theorem claim1_wit :
    mapLookup ("k") expiredCache.Storage = some ⟨5, 0⟩ ∧
      ((Get expiredCache 20 ("k")).1 = 5 ∧ (Get expiredCache 20 ("k")).2.1 = none ∧
        mapLookup ("k") (Get expiredCache 20 ("k")).2.2.Storage
          = some (StorageItem.mk 5 (20 + 1000 * millisecond))) :=
  ⟨by decide, (claim1_get_miss_iff_absent expiredCache 20 ("k")).2.2 ⟨5, 0⟩ (by decide)⟩

/-- C4 (amended): Has returns true exactly when the key is physically
present in the store; logical expiry is never checked.  On a true result
the entry's DeleteAt is refreshed to now + ttlMillis; on a false result
the cache is returned unchanged; Has is a total function. -/
theorem claim4_has_iff_present (c : InMemoryLRUCache α) (now : Int) (key : String) :
    ((Has c now key).1 = true ↔ mapLookup key c.Storage ≠ none) ∧
      ((Has c now key).1 = false → Has c now key = (false, c)) ∧
      (∀ item, mapLookup key c.Storage = some item →
        (Has c now key).1 = true ∧
          mapLookup key (Has c now key).2.Storage
            = some (StorageItem.mk item.Value (now + c.Config.TTL * millisecond))) := by
  cases hm : mapLookup key c.Storage with
  | none =>
    refine ⟨by simp [Has, hm], fun _ => by simp [Has, hm], ?_⟩
    intro item hitem
    exact absurd hitem (by simp)
  | some it =>
    refine ⟨by simp [Has, hm], ?_, ?_⟩
    · intro h
      simp [Has, hm] at h
    · intro item hitem
      have hit : it = item := Option.some.inj hitem
      subst hit
      refine ⟨by simp [Has, hm], ?_⟩
      simp only [Has, hm]
      rw [mapLookup_bumpKey_self, hm]
      simp [bumpDeleteAt]

/-- C4 counterexample: in expiredCache the key "k" has DeleteAt = 0 and the
query runs at instant 7000000, so it is not "present and not yet logically
expired"; has nevertheless answers true, refuting the claimed iff at this
input. -/
theorem claim4_cex :
    ¬ ((Has expiredCache 7000000 ("k")).1 = true ↔
        (mapLookup ("k") expiredCache.Storage ≠ none ∧ (7000000 : Int) < 0)) := by
  decide

/-- C4 witness: the no-side-effect false branch of claim4_has_iff_present
evaluated on expiredCache with the absent key "z". -/
theorem claim4_wit :
    (Has expiredCache 3 ("z")).1 = false ∧ Has expiredCache 3 ("z") = (false, expiredCache) :=
  ⟨by decide, (claim4_has_iff_present expiredCache 3 ("z")).2.1 (by decide)⟩

/-- C6 (confirmed): set(k, v) stores the entry with
DeleteAt = now + ttlMillis and returns the value just stored (it is a total
function, so it never fails); an immediately following get(k) - nothing
intervening, so k is neither expired-and-swept nor evicted in between -
returns v with a nil error. -/
theorem claim6_roundtrip [Inhabited α] (c : InMemoryLRUCache α) (key : String)
    (value : α) (n1 n2 : Int) :
    (Set c n1 key value).1 = value ∧
      mapLookup key (Set c n1 key value).2.Storage
        = some (StorageItem.mk value (n1 + c.Config.TTL * millisecond)) ∧
      (Get (Set c n1 key value).2 n2 key).1 = value ∧
      (Get (Set c n1 key value).2 n2 key).2.1 = none := by
  have hs := mapLookup_Set_self c n1 key value
  refine ⟨rfl, hs, ?_, ?_⟩ <;> simp [Get, hs]

/-- C10 (confirmed): neither Has nor Get ever adds or removes a key - the
key sequence of the store is unchanged, every key/value pairing is
unchanged, every entry other than the queried one is untouched (DeleteAt
included), and the configuration is untouched; the only possible mutation
is the queried entry's DeleteAt field. -/
theorem claim10_frame [Inhabited α] (c : InMemoryLRUCache α) (now : Int) (key : String) :
    ((Has c now key).2.Storage.map Prod.fst = c.Storage.map Prod.fst) ∧
      ((Get c now key).2.2.Storage.map Prod.fst = c.Storage.map Prod.fst) ∧
      ((Has c now key).2.Storage.map (fun p => (p.1, p.2.Value))
        = c.Storage.map (fun p => (p.1, p.2.Value))) ∧
      ((Get c now key).2.2.Storage.map (fun p => (p.1, p.2.Value))
        = c.Storage.map (fun p => (p.1, p.2.Value))) ∧
      ((Has c now key).2.Storage.filter (fun p => p.1 ≠ key)
        = c.Storage.filter (fun p => p.1 ≠ key)) ∧
      ((Get c now key).2.2.Storage.filter (fun p => p.1 ≠ key)
        = c.Storage.filter (fun p => p.1 ≠ key)) ∧
      (Has c now key).2.Config = c.Config ∧ (Get c now key).2.2.Config = c.Config := by
  cases hm : mapLookup key c.Storage with
  | none => simp [Has, Get, hm]
  | some it =>
    simp only [Has, Get, hm]
    refine ⟨bumpKey_map_fst _ _ _ _, bumpKey_map_fst _ _ _ _,
      bumpKey_map_kv _ _ _ _, bumpKey_map_kv _ _ _ _,
      bumpKey_filter_ne _ _ _ _, bumpKey_filter_ne _ _ _ _, ?_, ?_⟩ <;> trivial

/-- C7 (amended): one sweep tick keeps exactly the entries whose DeleteAt is
at least one millisecond after the current instant, i.e. it removes every
entry with DeleteAt at or before now, but also every entry expiring within
the coming millisecond, because now.Sub(DeleteAt).Milliseconds() truncates
toward zero; it performs no capacity eviction, never creates or modifies an
entry (the surviving store is a sublist of the original), and leaves the
configuration untouched. -/
theorem claim7_sweep_exactly_expired (c : InMemoryLRUCache α) (now : Int) :
    (sweepKeys c now).Config = c.Config ∧
      (sweepKeys c now).Storage
        = c.Storage.filter (fun p => now + millisecond ≤ p.2.DeleteAt) ∧
      List.Sublist (sweepKeys c now).Storage c.Storage := by
  have hiff : ∀ t : Int,
      (¬ (0 ≤ durationMilliseconds (now - t))) ↔ (now + millisecond ≤ t) := by
    intro t
    have h := tdiv_million_nonneg_iff (now - t)
    simp only [durationMilliseconds, millisecond]
    constructor
    · intro hn
      have h2 : ¬ (-1000000 < now - t) := fun hlt => hn (h.mpr hlt)
      omega
    · intro hle h0
      have h2 : -1000000 < now - t := h.mp h0
      omega
  have hst : (sweepKeys c now).Storage
      = c.Storage.filter (fun p => now + millisecond ≤ p.2.DeleteAt) := by
    show c.Storage.filter _ = c.Storage.filter _
    refine List.filter_congr ?_
    intro p _
    exact decide_eq_decide.mpr (hiff p.2.DeleteAt)
  refine ⟨rfl, hst, ?_⟩
  rw [hst]
  exact List.filter_sublist c.Storage

/-- C7 counterexample: in almostExpiredCache the only entry has
DeleteAt = 500000 ns, strictly after the sweep instant 0, so the claim says
the sweeper removes nothing; the tick nevertheless deletes it, because the
truncated millisecond difference is 0, which the code treats as expired. -/
theorem claim7_cex :
    ((0 : Int) < 500000) ∧ (sweepKeys almostExpiredCache 0).Storage = [] := by
  exact ⟨by decide, by decide⟩

/-- C9 (corrected, amended): construction performs no validation at all -
NewLRUCache accepts any configuration, including non-positive itemLimit and
ttlMillis, returns a handle with the given configuration and an empty
store, its signature has no error channel so rejection is impossible, and
the cache is usable as-is, so any misbehavior is deferred to use. -/
theorem claim9_no_validation (config : LRUCacheConfig) (key : String) (value : α) (now : Int) :
    (NewLRUCache config : InMemoryLRUCache α).Config = config ∧
      (NewLRUCache config : InMemoryLRUCache α).Storage = [] ∧
      mapLookup key (Set (NewLRUCache config) now key value).2.Storage
        = some (StorageItem.mk value (now + config.TTL * millisecond)) :=
  ⟨rfl, rfl, mapLookup_Set_self (NewLRUCache config) now key value⟩

/-- C9 counterexample: a configuration with itemLimit = 0 and ttlMillis = 0,
both non-positive, is not rejected at construction: NewLRUCache returns an
ordinary cache handle holding that configuration. -/
theorem claim9_cex :
    (NewLRUCache ⟨0, 0⟩ : InMemoryLRUCache Nat) = ⟨⟨0, 0⟩, []⟩ ∧ ¬ ((0 : Int) < 0) :=
  ⟨rfl, by decide⟩

/-- C5 (amended): set(k, v1) followed by set(k, v2) yields get(k) = v2 with
no error; and when the store is strictly below itemLimit after the first
set, the second set is a plain overwrite that preserves the store's size.
(When the store is at the limit, the second set still runs the eviction
scan and removes the minimum-deleteAt entry, possibly another key.) -/
theorem claim5_overwrite (c : InMemoryLRUCache α) [Inhabited α] (key : String)
    (v1 v2 : α) (n1 n2 n3 : Int) :
    (Get (Set (Set c n1 key v1).2 n2 key v2).2 n3 key).1 = v2 ∧
      (Get (Set (Set c n1 key v1).2 n2 key v2).2 n3 key).2.1 = none ∧
      ((((Set c n1 key v1).2.Storage.length : Int) < c.Config.ItemLimit) →
        (Set (Set c n1 key v1).2 n2 key v2).2.Storage.length
          = (Set c n1 key v1).2.Storage.length) := by
  have h1 := mapLookup_Set_self c n1 key v1
  have h2 := mapLookup_Set_self (Set c n1 key v1).2 n2 key v2
  refine ⟨by simp [Get, h2], by simp [Get, h2], ?_⟩
  intro hlt
  rw [Set_storage_of_lt (Set c n1 key v1).2 n2 key v2 hlt]
  refine mapInsert_length_present key _ _ ?_
  rw [h1]
  simp

/-- C5 counterexample: with itemLimit 2, after set("b",1) and set("a",2) the
store holds both keys (size 2); the overwrite set("a",3) runs the eviction
scan because the store is at the limit, removing "b" (minimal deleteAt), so
a set on an already-present key removes another key and shrinks the store
from 2 entries to 1. -/
theorem claim5_cex :
    ((Set (Set (NewLRUCache ⟨2, 1000⟩ : InMemoryLRUCache Nat) 0 ("b") 1).2
        1 ("a") 2).2.Storage.length = 2) ∧
      ((Set (Set (Set (NewLRUCache ⟨2, 1000⟩ : InMemoryLRUCache Nat) 0 ("b") 1).2
          1 ("a") 2).2 2 ("a") 3).2.Storage.length = 1) ∧
      (mapLookup ("b") (Set (Set (Set (NewLRUCache ⟨2, 1000⟩ : InMemoryLRUCache Nat)
          0 ("b") 1).2 1 ("a") 2).2 2 ("a") 3).2.Storage = none) := by
  refine ⟨by decide, by decide, by decide⟩

/-- C5 witness: claim5_overwrite evaluated from the empty cache with
itemLimit 3: after set("k",1) the store has 1 entry, below the limit, and
the overwrite set("k",2) keeps the size at 1 and get returns 2. -/
theorem claim5_wit :
    ((((Set (NewLRUCache ⟨3, 1000⟩ : InMemoryLRUCache Nat) 0 ("k") 1).2.Storage.length : Int)
        < (3 : Int)) ∧
      (Set (Set (NewLRUCache ⟨3, 1000⟩ : InMemoryLRUCache Nat) 0 ("k") 1).2
          1 ("k") 2).2.Storage.length
        = (Set (NewLRUCache ⟨3, 1000⟩ : InMemoryLRUCache Nat) 0 ("k") 1).2.Storage.length) :=
  ⟨by decide,
    (claim5_overwrite (NewLRUCache ⟨3, 1000⟩ : InMemoryLRUCache Nat) ("k") 1 2 0 1 2).2.2
      (by decide)⟩

/-- C3 (amended): when set is called with a new key on a store that holds
itemLimit entries none of which uses the empty-string key (and keys are
unique, as in a Go map), exactly one existing entry is evicted, one whose
deleteAt is minimal over the store - the least-recently-touched entry under
the shared TTL - and the new entry is then inserted, leaving the size
unchanged.  (With an empty-string key in the store the sentinel-based scan
can skip eviction or pick a non-minimal victim.) -/
theorem claim3_evicts_oldest (c : InMemoryLRUCache α) (now : Int) (key : String) (value : α)
    (hpos : 0 < c.Config.ItemLimit)
    (hfull : (c.Storage.length : Int) = c.Config.ItemLimit)
    (hkeys : ∀ p ∈ c.Storage, p.1 ≠ "")
    (hnd : (c.Storage.map Prod.fst).Nodup)
    (hnew : mapLookup key c.Storage = none) :
    ∃ victim ∈ c.Storage, victim.1 ≠ key ∧
      (∀ q ∈ c.Storage, victim.2.DeleteAt ≤ q.2.DeleteAt) ∧
      (Set c now key value).2.Storage
        = mapInsert key (StorageItem.mk value (now + c.Config.TTL * millisecond))
            (mapDelete victim.1 c.Storage) ∧
      (Set c now key value).2.Storage.length = c.Storage.length := by
  have hne : c.Storage ≠ [] := by
    have h0 : (0 : Int) < (c.Storage.length : Int) := by rw [hfull]; exact hpos
    have h1 : 0 < c.Storage.length := by exact_mod_cast h0
    exact List.ne_nil_of_length_pos h1
  obtain ⟨p, hp, hmin, hrem⟩ := removeOldestKey_spec c.Storage hne hkeys
  have hknot : ∀ q ∈ c.Storage, q.1 ≠ key := (mapLookup_eq_none_iff key c.Storage).mp hnew
  have hge : (c.Storage.length : Int) ≥ c.Config.ItemLimit := ge_of_eq hfull
  have hst : (Set c now key value).2.Storage
      = mapInsert key (StorageItem.mk value (now + c.Config.TTL * millisecond))
          (mapDelete p.1 c.Storage) := by
    simp only [Set, setFromChannel]
    rw [if_pos hge, hrem]
  refine ⟨p, hp, hknot p hp, hmin, hst, ?_⟩
  rw [hst]
  have habs : ∀ q ∈ mapDelete p.1 c.Storage, q.1 ≠ key :=
    fun q hq => hknot q (mapDelete_subset p.1 c.Storage q hq)
  rw [mapInsert_length_absent key _ _ habs]
  have hdel := mapDelete_length_nodup p.1 c.Storage hnd ⟨p, hp, rfl⟩
  omega

/-- C3 counterexample: emptyKeyCache holds itemLimit = 2 entries and "y" is
a new key, so the claim says exactly one existing entry is evicted by
set("y",3); but the minimal-deleteAt entry is stored under the empty-string
key, which the scan's sentinel check treats as "nothing found", so nothing
is evicted and the store grows to 3 entries. -/
theorem claim3_cex :
    emptyKeyCache.Storage.length = 2 ∧
      (Set emptyKeyCache 100 ("y") 3).2.Storage.length = 3 := by
  refine ⟨by decide, by decide⟩

/-- C3 witness: claim3_evicts_oldest evaluated on fullCache (two entries,
limit 2) with the fresh key "c": the victim is the minimal-deleteAt entry. -/
theorem claim3_wit :
    mapLookup ("c") fullCache.Storage = none ∧
      (∃ victim ∈ fullCache.Storage, victim.1 ≠ ("c") ∧
        (∀ q ∈ fullCache.Storage, victim.2.DeleteAt ≤ q.2.DeleteAt) ∧
        (Set fullCache 100 ("c") 3).2.Storage
          = mapInsert ("c") (StorageItem.mk 3 (100 + 1000 * millisecond))
              (mapDelete victim.1 fullCache.Storage) ∧
        (Set fullCache 100 ("c") 3).2.Storage.length = fullCache.Storage.length) :=
  ⟨by decide,
    claim3_evicts_oldest fullCache 100 ("c") 3 (by decide) (by decide) (by decide)
      (by decide) (by decide)⟩

/-- C2 (amended): for every sequence of has/get/set operations (sweep ticks
included) run from a cache constructed with itemLimit > 0, in which no set
uses the empty string as its key, the number of entries in the store never
exceeds itemLimit - here stated for the final state of an arbitrary
sequence, which covers every intermediate point since every prefix is
itself such a sequence.  (A set with the empty-string key can defeat the
eviction scan's sentinel and push the store past the limit.) -/
theorem claim2_capacity_invariant [Inhabited α] (config : LRUCacheConfig)
    (ops : List (CacheOp α))
    (hpos : 0 < config.ItemLimit)
    (hops : ∀ op ∈ ops, opSetKeyNonempty op = true) :
    ((runOps (NewLRUCache config) ops).Storage.length : Int) ≤ config.ItemLimit := by
  have h := runOps_inv ops (NewLRUCache config) hpos (by simp [NewLRUCache])
    (by simpa [NewLRUCache] using le_of_lt hpos) hops
  exact h.2.2

/-- C2 counterexample: with itemLimit = 1 > 0, the sequence
set(0, "", 7); set(1, "x", 8) from the empty cache ends with 2 entries in
the store: the second set should evict, but the scan's empty-string
sentinel makes it skip eviction, so the size exceeds itemLimit. -/
theorem claim2_cex :
    ((0 : Int) < 1) ∧
      ¬ (((runOps (NewLRUCache ⟨1, 1000⟩ : InMemoryLRUCache Nat)
            [CacheOp.set 0 ("") 7, CacheOp.set 1 ("x") 8]).Storage.length : Int) ≤ 1) := by
  refine ⟨by decide, by decide⟩

/-- C2 witness: claim2_capacity_invariant evaluated on itemLimit 2 with
three sets of distinct nonempty keys: the final store has at most 2
entries. -/
theorem claim2_wit :
    ((0 : Int) < 2) ∧
      (∀ op ∈ ([CacheOp.set 0 ("a") 1, CacheOp.set 1 ("b") 2, CacheOp.set 2 ("c") 3] :
          List (CacheOp Nat)), opSetKeyNonempty op = true) ∧
      ((runOps (NewLRUCache ⟨2, 1000⟩ : InMemoryLRUCache Nat)
          [CacheOp.set 0 ("a") 1, CacheOp.set 1 ("b") 2, CacheOp.set 2 ("c") 3]).Storage.length
        : Int) ≤ 2 :=
  ⟨by decide, by decide,
    claim2_capacity_invariant ⟨2, 1000⟩
      [CacheOp.set 0 ("a") 1, CacheOp.set 1 ("b") 2, CacheOp.set 2 ("c") 3]
      (by decide) (by decide)⟩

end LRU
